import Mathlib

set_option linter.unusedSectionVars false

/-!
Formal model of `src/fft_fr.c` (discrete Fourier transforms over arrays of field
elements, from rubo/c-kzg-4844).

The field element type `fr_t` and its arithmetic (`fr_add`, `fr_sub`, `fr_mul`,
`fr_inv`, `fr_from_uint64`) are external collaborators assumed correct, so they are
modelled by an abstract `Field F`.  C arrays and pointers are modelled as functions
`Nat → F` from (absolute) slot index to contents; a pointer offset `p + k` becomes a
shift of the index function, and a store becomes a pointwise functional update.
-/

/-- Return code of the C API (`C_KZG_RET`); `fft_fr.c` only ever produces the two
codes `C_KZG_OK` and `C_KZG_BADARGS` (via the `CHECK` macro). -/
inductive C_KZG_RET where
  | C_KZG_OK : C_KZG_RET
  | C_KZG_BADARGS : C_KZG_RET
deriving DecidableEq

open C_KZG_RET

/-- The `FFTSettings` structure as read by `fft_fr.c`: the maximum width and the two
precomputed root-of-unity tables (arrays modelled as index functions). -/
structure FFTSettings (F : Type) where
  max_width : Nat
  expanded_roots_of_unity : Nat → F
  reverse_roots_of_unity : Nat → F

variable {F : Type} [Field F]

/-- Store value `v` at slot `i` of memory `f` (models an array assignment). -/
def updAt (f : Nat → F) (i : Nat) (v : F) : Nat → F :=
  fun p => if p = i then v else f p

/-- Pointer arithmetic: the view of memory `f` starting `k` slots in (models `f + k`). -/
def shiftView (f : Nat → F) (k : Nat) : Nat → F :=
  fun i => f (k + i)

/-- Merge the memory `v` produced by running a callee on the view `base + k` back into
the caller's full memory `base`: slots at or beyond `k` come from `v`, slots before
`k` are the caller's. -/
def unshift (base : Nat → F) (k : Nat) (v : Nat → F) : Nat → F :=
  fun p => if k ≤ p then v (p - k) else base p

/-- Body of the butterfly loop of `fft_fr_fast` (fft_fr.c lines 49-54): compute
`y_times_root = out[i + half] * roots[i * roots_stride]`, then store
`out[i + half] = out[i] - y_times_root`, then store `out[i] = out[i] + y_times_root`,
in that exact order (the second store reads `out[i]` from the memory produced by the
first store). -/
def fft_butterfly (roots : Nat → F) (roots_stride half i : Nat) (out : Nat → F) : Nat → F :=
  let y_times_root := out (i + half) * roots (i * roots_stride)
  let out1 := updAt out (i + half) (out i - y_times_root)
  updAt out1 i (out1 i + y_times_root)

/-- The recursive FFT engine `fft_fr_fast` (fft_fr.c lines 43-58).  `out` is the whole
output memory, `inp` the input memory; strides and lengths are as in the C code.  The
first recursive call writes into `out`, the second into the shifted view `out + half`
reading from `in + stride`; then the butterfly loop runs for `i` in `[0, half)`.  When
`half = n / 2 = 0` the single input element is copied to `out[0]`. -/
def fft_fr_fast (out inp : Nat → F) (stride : Nat) (roots : Nat → F)
    (roots_stride n : Nat) : Nat → F :=
  if _h : 0 < n / 2 then
    (List.range (n / 2)).foldl
      (fun o i => fft_butterfly roots roots_stride (n / 2) i o)
      (unshift (fft_fr_fast out inp (stride * 2) roots (roots_stride * 2) (n / 2)) (n / 2)
        (fft_fr_fast
          (shiftView (fft_fr_fast out inp (stride * 2) roots (roots_stride * 2) (n / 2)) (n / 2))
          (shiftView inp stride) (stride * 2) roots (roots_stride * 2) (n / 2)))
  else
    updAt out 0 (inp 0)
termination_by n
decreasing_by
  all_goals omega

/-- The memory after the two recursive calls of `fft_fr_fast` (lines 47-48), just
before the butterfly loop starts. -/
def fft_fr_fast_sub (out inp : Nat → F) (stride : Nat) (roots : Nat → F)
    (roots_stride n : Nat) : Nat → F :=
  unshift (fft_fr_fast out inp (stride * 2) roots (roots_stride * 2) (n / 2)) (n / 2)
    (fft_fr_fast
      (shiftView (fft_fr_fast out inp (stride * 2) roots (roots_stride * 2) (n / 2)) (n / 2))
      (shiftView inp stride) (stride * 2) roots (roots_stride * 2) (n / 2))

/-- Modelled from the spec: `is_power_of_two` is declared in `utility.h`, whose
implementation is not among the sources here.  The spec states that `n = 0` and any
`n` that is not a power of two must be rejected, so the predicate holds exactly on
the powers of two.  (The bound `k < n + 1` only serves decidability: `n = 2 ^ k`
forces `k < 2 ^ k = n < n + 1`.) -/
def is_power_of_two (n : Nat) : Bool :=
  decide (∃ k, k < n + 1 ∧ n = 2 ^ k)

/-- The driver `fft_fr` (fft_fr.c lines 71-87).  Note that the C code computes
`stride = fs->max_width / n` before the two `CHECK`s run; for `n = 0` that division
is undefined behaviour in C (there is no value the call returns), modelled here as
`none`.  Otherwise the call returns the `C_KZG_RET` code together with the final
output memory.  `fr_from_uint64` followed by `fr_inv` on `n` is the field inverse of
the canonical image of `n`. -/
def fft_fr (out inp : Nat → F) (inverse : Bool) (n : Nat) (fs : FFTSettings F) :
    Option (C_KZG_RET × (Nat → F)) :=
  if n = 0 then none else
  let stride := fs.max_width / n
  if ¬ n ≤ fs.max_width then some (C_KZG_BADARGS, out) else
  if ¬ is_power_of_two n = true then some (C_KZG_BADARGS, out) else
  if inverse then
    let inv_len : F := ((n : F))⁻¹
    some (C_KZG_OK,
      (List.range n).foldl (fun o i => updAt o i (o i * inv_len))
        (fft_fr_fast out inp 1 fs.reverse_roots_of_unity stride n))
  else
    some (C_KZG_OK, fft_fr_fast out inp 1 fs.expanded_roots_of_unity stride n)

/-- Inner loop (lines 128-134) of `fft_fr_slow` for output row `i`: the accumulator
starts as `in[0] * roots[0]` and the loop adds `in[j * stride] * roots[((i * j) % n) *
roots_stride]` for `j` from `1` to `n - 1`. -/
def fft_fr_slow_entry (inp : Nat → F) (stride : Nat) (roots : Nat → F)
    (roots_stride n i : Nat) : F :=
  (List.range (n - 1)).foldl
    (fun last k => last + inp ((k + 1) * stride) * roots ((i * (k + 1)) % n * roots_stride))
    (inp 0 * roots 0)

/-- The naive transform `fft_fr_slow` (fft_fr.c lines 124-137, in the test section):
for each `i` in `[0, n)` the accumulated row value is written to `out[i]`. -/
def fft_fr_slow (out inp : Nat → F) (stride : Nat) (roots : Nat → F)
    (roots_stride n : Nat) : Nat → F :=
  (List.range n).foldl
    (fun o i => updAt o i (fft_fr_slow_entry inp stride roots roots_stride n i)) out

theorem updAt_same (f : Nat → F) (i : Nat) (v : F) : updAt f i v i = v := by
  simp [updAt]

theorem updAt_other (f : Nat → F) (i p : Nat) (v : F) (h : p ≠ i) : updAt f i v p = f p := by
  simp [updAt, h]

theorem is_power_of_two_iff (n : Nat) : is_power_of_two n = true ↔ ∃ k, n = 2 ^ k := by
  unfold is_power_of_two
  rw [decide_eq_true_eq]
  constructor
  · rintro ⟨k, _, hk⟩
    exact ⟨k, hk⟩
  · rintro ⟨k, hk⟩
    refine ⟨k, ?_, hk⟩
    have h2 : k < 2 ^ k := Nat.lt_two_pow k
    omega

theorem fft_fr_fast_base (out inp : Nat → F) (stride : Nat) (roots : Nat → F)
    (rs n : Nat) (h : n / 2 = 0) :
    fft_fr_fast out inp stride roots rs n = updAt out 0 (inp 0) := by
  rw [fft_fr_fast]
  simp [h]

theorem fft_fr_fast_rec (out inp : Nat → F) (stride : Nat) (roots : Nat → F)
    (rs n : Nat) (h : 0 < n / 2) :
    fft_fr_fast out inp stride roots rs n
      = (List.range (n / 2)).foldl (fun o i => fft_butterfly roots rs (n / 2) i o)
          (fft_fr_fast_sub out inp stride roots rs n) := by
  rw [fft_fr_fast]
  simp [h, fft_fr_fast_sub]

theorem foldl_updAt_spec (g : Nat → F) (n : Nat) (out : Nat → F) :
    ∀ p, ((List.range n).foldl (fun o i => updAt o i (g i)) out) p
      = if p < n then g p else out p := by
  induction n with
  | zero => intro p; simp
  | succ n ih =>
      intro p
      rw [List.range_succ, List.foldl_append]
      simp only [List.foldl_cons, List.foldl_nil]
      by_cases hp : p = n
      · subst hp
        rw [updAt_same, if_pos (by omega)]
      · rw [updAt_other _ _ _ _ hp, ih]
        by_cases h2 : p < n
        · rw [if_pos h2, if_pos (by omega)]
        · rw [if_neg h2, if_neg (by omega)]

theorem foldl_scale_spec (c : F) (n : Nat) (out : Nat → F) :
    ∀ p, ((List.range n).foldl (fun o i => updAt o i (o i * c)) out) p
      = if p < n then out p * c else out p := by
  induction n with
  | zero => intro p; simp
  | succ n ih =>
      intro p
      rw [List.range_succ, List.foldl_append]
      simp only [List.foldl_cons, List.foldl_nil]
      by_cases hp : p = n
      · subst hp
        rw [updAt_same, ih p, if_neg (by omega), if_pos (by omega)]
      · rw [updAt_other _ _ _ _ hp, ih]
        by_cases h2 : p < n
        · rw [if_pos h2, if_pos (by omega)]
        · rw [if_neg h2, if_neg (by omega)]

theorem fft_butterfly_spec (roots : Nat → F) (rs half i : Nat) (hhalf : 0 < half)
    (out : Nat → F) :
    (∀ p, p ≠ i → p ≠ i + half → fft_butterfly roots rs half i out p = out p)
    ∧ fft_butterfly roots rs half i out i = out i + out (i + half) * roots (i * rs)
    ∧ fft_butterfly roots rs half i out (i + half)
        = out i - out (i + half) * roots (i * rs) := by
  refine ⟨?_, ?_, ?_⟩
  · intro p hp1 hp2
    simp only [fft_butterfly, updAt]
    rw [if_neg hp1, if_neg hp2]
  · simp only [fft_butterfly, updAt]
    rw [if_pos trivial, if_neg (by omega : ¬ i = i + half)]
  · simp only [fft_butterfly, updAt]
    rw [if_neg (by omega : ¬ i + half = i), if_pos trivial]

theorem butterfly_fold_spec (roots : Nat → F) (rs half : Nat) (out : Nat → F) :
    ∀ m, m ≤ half → ∀ p,
      ((List.range m).foldl (fun o i => fft_butterfly roots rs half i o) out) p =
        if p < m then out p + out (p + half) * roots (p * rs)
        else if half ≤ p ∧ p < half + m then out (p - half) - out p * roots ((p - half) * rs)
        else out p := by
  intro m
  induction m with
  | zero =>
      intro _ p
      simp only [List.range_zero, List.foldl_nil]
      rw [if_neg (by omega), if_neg (by omega)]
  | succ m ih =>
      intro hm p
      rw [List.range_succ, List.foldl_append]
      simp only [List.foldl_cons, List.foldl_nil]
      have hA := ih (by omega)
      obtain ⟨hother, hi, hih⟩ := fft_butterfly_spec roots rs half m (by omega)
        ((List.range m).foldl (fun o i => fft_butterfly roots rs half i o) out)
      by_cases hp1 : p = m
      · subst hp1
        rw [hi, hA p, hA (p + half), if_neg (by omega), if_neg (by omega),
          if_neg (by omega), if_neg (by omega), if_pos (by omega)]
      · by_cases hp2 : p = m + half
        · subst hp2
          rw [hih, hA m, hA (m + half), if_neg (by omega), if_neg (by omega),
            if_neg (by omega), if_neg (by omega), if_neg (by omega),
            if_pos (by omega : half ≤ m + half ∧ m + half < half + (m + 1))]
          simp only [Nat.add_sub_cancel]
        · rw [hother p hp1 hp2, hA p]
          by_cases h3 : p < m
          · rw [if_pos h3, if_pos (by omega)]
          · by_cases h4 : half ≤ p ∧ p < half + m
            · rw [if_neg h3, if_pos h4, if_neg (by omega), if_pos (by omega)]
            · rw [if_neg h3, if_neg h4, if_neg (by omega), if_neg (by omega)]

theorem fft_fr_fast_frame :
    ∀ n : Nat, 1 ≤ n → ∀ (out inp : Nat → F) (stride : Nat) (roots : Nat → F) (rs p : Nat),
      n ≤ p → fft_fr_fast out inp stride roots rs n p = out p := by
  intro n
  induction n using Nat.strong_induction_on with
  | _ n ih =>
    intro hn out inp stride roots rs p hp
    by_cases h : 0 < n / 2
    · rw [fft_fr_fast_rec _ _ _ _ _ _ h,
        butterfly_fold_spec roots rs (n / 2) _ (n / 2) (le_refl _) p,
        if_neg (by omega), if_neg (by omega)]
      unfold fft_fr_fast_sub unshift
      rw [if_pos (by omega : n / 2 ≤ p),
        ih (n / 2) (by omega) (by omega) _ _ _ _ _ _ (by omega : n / 2 ≤ p - n / 2)]
      simp only [shiftView]
      have hpq : n / 2 + (p - n / 2) = p := by omega
      rw [hpq, ih (n / 2) (by omega) (by omega) _ _ _ _ _ _ (by omega : n / 2 ≤ p)]
    · rw [fft_fr_fast_base _ _ _ _ _ _ (by omega), updAt_other _ _ _ _ (by omega)]

theorem sum_range_even_odd {M : Type} [AddCommMonoid M] (g : Nat → M) (h : Nat) :
    ∑ j in Finset.range (2 * h), g j
      = ∑ j in Finset.range h, (g (2 * j) + g (2 * j + 1)) := by
  induction h with
  | zero => simp
  | succ h ih =>
      have e : 2 * (h + 1) = 2 * h + 1 + 1 := by omega
      rw [e, Finset.sum_range_succ, Finset.sum_range_succ, ih, Finset.sum_range_succ]
      abel

theorem fft_fr_fast_eval :
    ∀ (k : Nat) (out inp : Nat → F) (stride : Nat) (roots : Nat → F) (rs : Nat) (ω : F),
      (∀ i, i < 2 ^ k → roots (i * rs) = ω ^ i) →
      (k ≠ 0 → ω ^ (2 ^ (k - 1)) = -1) →
      ∀ i, i < 2 ^ k →
        fft_fr_fast out inp stride roots rs (2 ^ k) i
          = ∑ j in Finset.range (2 ^ k), inp (j * stride) * ω ^ (i * j) := by
  intro k
  induction k with
  | zero =>
      intro out inp stride roots rs ω hroots hω i hi
      have hi0 : i = 0 := by omega
      subst hi0
      rw [fft_fr_fast_base _ _ _ _ _ _ (by norm_num), updAt_same]
      simp
  | succ k ih =>
      intro out inp stride roots rs ω hroots hω i hi
      have hdouble : 2 ^ (k + 1) = 2 * 2 ^ k := by rw [Nat.pow_succ]; ring
      have hhalf : 2 ^ (k + 1) / 2 = 2 ^ k := by omega
      have hpos : 0 < 2 ^ (k + 1) / 2 := by
        rw [hhalf]
        positivity
      have hω1 : ω ^ (2 ^ k) = -1 := by
        have h2 := hω (by omega)
        simpa using h2
      have hωn : ω ^ (2 ^ (k + 1)) = 1 := by
        rw [hdouble, mul_comm, pow_mul, hω1]
        norm_num
      have hroots2 : ∀ t, t < 2 ^ k → roots (t * (rs * 2)) = (ω ^ 2) ^ t := by
        intro t ht
        have e1 : t * (rs * 2) = 2 * t * rs := by ring
        rw [e1, hroots (2 * t) (by omega), pow_mul]
      have hω2 : k ≠ 0 → (ω ^ 2) ^ (2 ^ (k - 1)) = -1 := by
        intro hk0
        rw [← pow_mul]
        have e2 : 2 * 2 ^ (k - 1) = 2 ^ k := by
          cases k with
          | zero => omega
          | succ k2 => simp [Nat.pow_succ]; ring
        rw [e2, hω1]
      have hA : ∀ q, q < 2 ^ k →
          fft_fr_fast out inp (stride * 2) roots (rs * 2) (2 ^ k) q
            = ∑ j in Finset.range (2 ^ k), inp (j * (stride * 2)) * (ω ^ 2) ^ (q * j) :=
        fun q hq => ih out inp (stride * 2) roots (rs * 2) (ω ^ 2) hroots2 hω2 q hq
      have hB : ∀ q, q < 2 ^ k →
          fft_fr_fast
              (shiftView (fft_fr_fast out inp (stride * 2) roots (rs * 2) (2 ^ k)) (2 ^ k))
              (shiftView inp stride) (stride * 2) roots (rs * 2) (2 ^ k) q
            = ∑ j in Finset.range (2 ^ k), inp (stride + j * (stride * 2)) * (ω ^ 2) ^ (q * j) := by
        intro q hq
        rw [ih _ _ (stride * 2) roots (rs * 2) (ω ^ 2) hroots2 hω2 q hq]
        apply Finset.sum_congr rfl
        intro j _
        simp [shiftView]
      have hsub : ∀ p, fft_fr_fast_sub out inp stride roots rs (2 ^ (k + 1)) p
          = if 2 ^ k ≤ p
            then fft_fr_fast
                (shiftView (fft_fr_fast out inp (stride * 2) roots (rs * 2) (2 ^ k)) (2 ^ k))
                (shiftView inp stride) (stride * 2) roots (rs * 2) (2 ^ k) (p - 2 ^ k)
            else fft_fr_fast out inp (stride * 2) roots (rs * 2) (2 ^ k) p := by
        intro p
        unfold fft_fr_fast_sub unshift
        rw [hhalf]
      rw [fft_fr_fast_rec _ _ _ _ _ _ hpos, hhalf,
        butterfly_fold_spec roots rs (2 ^ k) _ (2 ^ k) (le_refl _) i]
      by_cases hi2 : i < 2 ^ k
      · rw [if_pos hi2, hsub i, if_neg (by omega), hsub (i + 2 ^ k), if_pos (by omega),
          Nat.add_sub_cancel, hA i hi2, hB i hi2, hroots i (by omega), hdouble,
          sum_range_even_odd, Finset.sum_mul, ← Finset.sum_add_distrib]
        apply Finset.sum_congr rfl
        intro j _
        have ha : j * (stride * 2) = 2 * j * stride := by ring
        have hb : stride + j * (stride * 2) = (2 * j + 1) * stride := by ring
        rw [hb, ha]
        ring
      · obtain ⟨q, rfl⟩ : ∃ q, i = q + 2 ^ k := ⟨i - 2 ^ k, by omega⟩
        have hq : q < 2 ^ k := by omega
        rw [if_neg (by omega), if_pos (by omega : 2 ^ k ≤ q + 2 ^ k ∧ q + 2 ^ k < 2 ^ k + 2 ^ k),
          Nat.add_sub_cancel, hsub q, if_neg (by omega), hsub (q + 2 ^ k), if_pos (by omega),
          Nat.add_sub_cancel, hA q hq, hB q hq, hroots q (by omega), hdouble,
          sum_range_even_odd, Finset.sum_mul, ← Finset.sum_sub_distrib]
        apply Finset.sum_congr rfl
        intro j _
        have ha : j * (stride * 2) = 2 * j * stride := by ring
        have hb : stride + j * (stride * 2) = (2 * j + 1) * stride := by ring
        have hx1 : ω ^ ((q + 2 ^ k) * (2 * j))
            = ω ^ (q * (2 * j)) * (ω ^ (2 ^ (k + 1))) ^ j := by
          rw [← pow_mul, ← pow_add]
          congr 1
          rw [hdouble]; ring
        have hx2 : ω ^ ((q + 2 ^ k) * (2 * j + 1))
            = ω ^ (q * (2 * j + 1)) * (ω ^ (2 ^ (k + 1))) ^ j * ω ^ (2 ^ k) := by
          rw [← pow_mul, ← pow_add, ← pow_add]
          congr 1
          rw [hdouble]; ring
        rw [hb, ha, hx1, hx2, hωn, one_pow, mul_one, hω1]
        ring

theorem fft_fr_slow_entry_spec (inp : Nat → F) (stride : Nat) (roots : Nat → F)
    (rs n i : Nat) (hn : 1 ≤ n) :
    fft_fr_slow_entry inp stride roots rs n i
      = ∑ j in Finset.range n, inp (j * stride) * roots ((i * j) % n * rs) := by
  unfold fft_fr_slow_entry
  have key : ∀ m a, (List.range m).foldl
      (fun last k => last + inp ((k + 1) * stride) * roots ((i * (k + 1)) % n * rs)) a
      = a + ∑ j in Finset.range m, inp ((j + 1) * stride) * roots ((i * (j + 1)) % n * rs) := by
    intro m
    induction m with
    | zero => intro a; simp
    | succ m ih =>
        intro a
        rw [List.range_succ, List.foldl_append]
        simp only [List.foldl_cons, List.foldl_nil]
        rw [ih, Finset.sum_range_succ]
        ring
  rw [key]
  obtain ⟨m, rfl⟩ : ∃ m, n = m + 1 := ⟨n - 1, by omega⟩
  simp only [Nat.add_sub_cancel]
  rw [Finset.sum_range_succ']
  simp [add_comm]

theorem fft_fr_slow_spec (out inp : Nat → F) (stride : Nat) (roots : Nat → F)
    (rs n : Nat) (hn : 1 ≤ n) :
    ∀ p, fft_fr_slow out inp stride roots rs n p
      = if p < n then ∑ j in Finset.range n, inp (j * stride) * roots ((p * j) % n * rs)
        else out p := by
  intro p
  unfold fft_fr_slow
  rw [foldl_updAt_spec (fft_fr_slow_entry inp stride roots rs n) n out p]
  by_cases hp : p < n
  · rw [if_pos hp, if_pos hp, fft_fr_slow_entry_spec _ _ _ _ _ _ hn]
  · rw [if_neg hp, if_neg hp]

/-- C1: for every power-of-two length `n = 2 ^ k` and every input sequence, with a
consistent roots-of-unity table (`roots[i * roots_stride] = ω ^ i` for `i < n`, where
`ω ^ (n / 2) = -1` whenever `n ≥ 2`), the output of the recursive engine
`fft_fr_fast` equals, at every index `i < n`, the output of the naive `fft_fr_slow`,
whose entry `i` is the direct evaluation
`Σ_j in[j * stride] * root[((i * j) % n) * roots_stride]`. -/
theorem fft_fr_fast_eq_fft_fr_slow (out outSlow inp : Nat → F) (stride : Nat)
    (roots : Nat → F) (rs n k : Nat) (ω : F) (hn : n = 2 ^ k)
    (hroots : ∀ i, i < n → roots (i * rs) = ω ^ i)
    (hω : 2 ≤ n → ω ^ (n / 2) = -1) :
    ∀ i, i < n →
      fft_fr_fast out inp stride roots rs n i = fft_fr_slow outSlow inp stride roots rs n i
      ∧ fft_fr_slow outSlow inp stride roots rs n i
          = ∑ j in Finset.range n, inp (j * stride) * roots ((i * j) % n * rs) := by
  intro i hi
  have hn1 : 1 ≤ n := by
    subst hn
    exact Nat.one_le_pow k 2 (by norm_num)
  have hslow := fft_fr_slow_spec outSlow inp stride roots rs n hn1 i
  rw [if_pos hi] at hslow
  refine ⟨?_, hslow⟩
  rw [hslow]
  subst hn
  have hω2 : k ≠ 0 → ω ^ 2 ^ (k - 1) = -1 := by
    intro hk0
    have h2 : 2 ≤ 2 ^ k := by
      calc 2 = 2 ^ 1 := by norm_num
      _ ≤ 2 ^ k := Nat.pow_le_pow_right (by norm_num) (by omega)
    have h3 := hω h2
    have h4 : 2 ^ k / 2 = 2 ^ (k - 1) := by
      obtain ⟨k2, rfl⟩ : ∃ k2, k = k2 + 1 := ⟨k - 1, by omega⟩
      simp [Nat.pow_succ]
    rwa [h4] at h3
  rw [fft_fr_fast_eval k out inp stride roots rs ω hroots hω2 i hi]
  apply Finset.sum_congr rfl
  intro j _
  congr 1
  rw [hroots ((i * j) % 2 ^ k) (Nat.mod_lt _ (by positivity))]
  by_cases hk : k = 0
  · subst hk
    simp only [pow_zero, Nat.lt_one_iff] at hi
    subst hi
    simp
  · have hωn : ω ^ 2 ^ k = 1 := by
      have e : 2 ^ k = 2 ^ (k - 1) * 2 := by
        obtain ⟨k2, rfl⟩ : ∃ k2, k = k2 + 1 := ⟨k - 1, by omega⟩
        simp [Nat.pow_succ]
      rw [e, pow_mul, hω2 hk]
      norm_num
    exact pow_eq_pow_mod (i * j) hωn

theorem pow_two_ne_zero (k : Nat) : (2 : Nat) ^ k ≠ 0 := by positivity

theorem fft_fr_forward_spec (out inp : Nat → F) (n : Nat) (fs : FFTSettings F)
    (hpow : is_power_of_two n = true) (hle : n ≤ fs.max_width) :
    fft_fr out inp false n fs
      = some (C_KZG_OK,
          fft_fr_fast out inp 1 fs.expanded_roots_of_unity (fs.max_width / n) n) := by
  have hn0 : n ≠ 0 := by
    rcases (is_power_of_two_iff n).mp hpow with ⟨k, rfl⟩
    exact pow_two_ne_zero k
  simp [fft_fr, hn0, hle, hpow]

theorem fft_fr_inverse_spec (out inp : Nat → F) (n : Nat) (fs : FFTSettings F)
    (hpow : is_power_of_two n = true) (hle : n ≤ fs.max_width) :
    fft_fr out inp true n fs
      = some (C_KZG_OK, fun p =>
          if p < n
          then fft_fr_fast out inp 1 fs.reverse_roots_of_unity (fs.max_width / n) n p
                * ((n : F))⁻¹
          else fft_fr_fast out inp 1 fs.reverse_roots_of_unity (fs.max_width / n) n p) := by
  have hn0 : n ≠ 0 := by
    rcases (is_power_of_two_iff n).mp hpow with ⟨k, rfl⟩
    exact pow_two_ne_zero k
  have hmem := funext (foldl_scale_spec ((n : F))⁻¹ n
    (fft_fr_fast out inp 1 fs.reverse_roots_of_unity (fs.max_width / n) n))
  simp only [fft_fr, if_neg hn0, hle, hpow]
  simp only [not_true, if_false, if_true, ite_true, ite_false]
  exact congrArg (fun m => some (C_KZG_OK, m)) hmem

theorem fft_fr_badargs_spec (out inp : Nat → F) (inverse : Bool) (n : Nat)
    (fs : FFTSettings F) (hn0 : n ≠ 0)
    (h : ¬ (is_power_of_two n = true ∧ n ≤ fs.max_width)) :
    fft_fr out inp inverse n fs = some (C_KZG_BADARGS, out) := by
  unfold fft_fr
  by_cases h1 : n ≤ fs.max_width
  · have h2 : ¬ is_power_of_two n = true := by tauto
    simp [hn0, h1, h2]
  · simp [hn0, h1]

/-- C3: the claim says a `BadArguments` failure is detected before any computation,
but the C code evaluates `stride = fs->max_width / n` first; at `n = 0` that is a
division by zero (undefined behaviour, modelled `none`), not a `BadArguments` return.
For every `n ≥ 1` the rest of the claim holds: `BadArguments` with `out` untouched
exactly when `n` is not a power of two or `n > max_width`, and success whenever `n`
is a power of two with `n ≤ max_width`. -/
theorem fft_fr_check_behaviour (out inp : Nat → F) (inverse : Bool) (fs : FFTSettings F) :
    fft_fr out inp inverse 0 fs = none
    ∧ (∀ n, 1 ≤ n →
        ((¬ is_power_of_two n = true ∨ fs.max_width < n) →
            fft_fr out inp inverse n fs = some (C_KZG_BADARGS, out))
        ∧ (is_power_of_two n = true → n ≤ fs.max_width →
            ∃ mem, fft_fr out inp inverse n fs = some (C_KZG_OK, mem))) := by
  refine ⟨by simp [fft_fr], ?_⟩
  intro n hn
  constructor
  · intro h
    apply fft_fr_badargs_spec out inp inverse n fs (by omega)
    rintro ⟨hp, hl⟩
    rcases h with h | h
    · exact h hp
    · omega
  · intro hpow hle
    cases inverse
    · exact ⟨_, fft_fr_forward_spec out inp n fs hpow hle⟩
    · exact ⟨_, fft_fr_inverse_spec out inp n fs hpow hle⟩

/-- C4: for every valid inverse call (`n` a power of two, `n ≤ max_width`), the
result is the engine's transform of the input with the inverse-root table at stride
`max_width / n`, with every element of the first `n` slots then multiplied by the
field inverse of the field embedding of `n`. -/
theorem fft_fr_inverse_is_engine_then_scale (out inp : Nat → F) (n : Nat)
    (fs : FFTSettings F) (hpow : is_power_of_two n = true) (hle : n ≤ fs.max_width) :
    fft_fr out inp true n fs
      = some (C_KZG_OK, fun p =>
          if p < n
          then fft_fr_fast out inp 1 fs.reverse_roots_of_unity (fs.max_width / n) n p
                * ((n : F))⁻¹
          else fft_fr_fast out inp 1 fs.reverse_roots_of_unity (fs.max_width / n) n p) :=
  fft_fr_inverse_spec out inp n fs hpow hle

/-- C7: for `n = 1` and any single-element input, `fft_fr` succeeds and writes
`out[0] = in[0]`, in both the forward and the inverse direction. -/
theorem fft_fr_length_one (out inp : Nat → F) (fs : FFTSettings F) (inverse : Bool)
    (hle : 1 ≤ fs.max_width) :
    (fft_fr out inp inverse 1 fs).map (fun r => (r.1, r.2 0))
      = some (C_KZG_OK, inp 0) := by
  have hpow : is_power_of_two 1 = true := by decide
  cases inverse
  · rw [fft_fr_forward_spec out inp 1 fs hpow hle,
      fft_fr_fast_base _ _ _ _ _ _ (by norm_num)]
    simp [updAt]
  · rw [fft_fr_inverse_spec out inp 1 fs hpow hle,
      fft_fr_fast_base _ _ _ _ _ _ (by norm_num)]
    simp [updAt]

theorem fft_butterfly_congr (roots1 roots2 : Nat → F) (rs1 rs2 half i : Nat)
    (o : Nat → F) (h : roots1 (i * rs1) = roots2 (i * rs2)) :
    fft_butterfly roots1 rs1 half i o = fft_butterfly roots2 rs2 half i o := by
  unfold fft_butterfly
  rw [h]

theorem fft_fr_fast_roots_congr :
    ∀ n : Nat, ∀ (out inp : Nat → F) (stride : Nat) (roots1 roots2 : Nat → F) (rs1 rs2 : Nat),
      (∀ j, j < n → roots1 (j * rs1) = roots2 (j * rs2)) →
      fft_fr_fast out inp stride roots1 rs1 n = fft_fr_fast out inp stride roots2 rs2 n := by
  intro n
  induction n using Nat.strong_induction_on with
  | _ n ih =>
    intro out inp stride roots1 roots2 rs1 rs2 hcons
    by_cases h : 0 < n / 2
    · have hrec : ∀ j, j < n / 2 → roots1 (j * (rs1 * 2)) = roots2 (j * (rs2 * 2)) := by
        intro j hj
        have e1 : j * (rs1 * 2) = 2 * j * rs1 := by ring
        have e2 : j * (rs2 * 2) = 2 * j * rs2 := by ring
        rw [e1, e2]
        exact hcons (2 * j) (by omega)
      have hsub : fft_fr_fast_sub out inp stride roots1 rs1 n
          = fft_fr_fast_sub out inp stride roots2 rs2 n := by
        unfold fft_fr_fast_sub
        rw [ih (n / 2) (by omega) out inp (stride * 2) roots1 roots2 (rs1 * 2) (rs2 * 2) hrec,
          ih (n / 2) (by omega) _ _ (stride * 2) roots1 roots2 (rs1 * 2) (rs2 * 2) hrec]
      rw [fft_fr_fast_rec _ _ _ _ _ _ h, fft_fr_fast_rec _ _ _ _ _ _ h, hsub]
      apply List.foldl_ext
      intro o j hj
      exact fft_butterfly_congr roots1 roots2 rs1 rs2 (n / 2) j o
        (hcons j (by have := List.mem_range.mp hj; omega))
    · rw [fft_fr_fast_base _ _ _ _ _ _ (by omega), fft_fr_fast_base _ _ _ _ _ _ (by omega)]

/-- C6: for the same input and power-of-two length `n`, two settings objects whose
relevant root tables agree on the strided sub-table addressed by
`stride = max_width / n` produce identical `fft_fr` results, whether `n` equals a
settings object's `max_width` or divides a larger one. -/
theorem fft_fr_stride_consistent (out inp : Nat → F) (n : Nat) (fs1 fs2 : FFTSettings F)
    (inverse : Bool) (hpow : is_power_of_two n = true)
    (hle1 : n ≤ fs1.max_width) (hle2 : n ≤ fs2.max_width)
    (hfwd : ∀ j, j < n → fs1.expanded_roots_of_unity (j * (fs1.max_width / n))
        = fs2.expanded_roots_of_unity (j * (fs2.max_width / n)))
    (hrev : ∀ j, j < n → fs1.reverse_roots_of_unity (j * (fs1.max_width / n))
        = fs2.reverse_roots_of_unity (j * (fs2.max_width / n))) :
    fft_fr out inp inverse n fs1 = fft_fr out inp inverse n fs2 := by
  cases inverse
  · rw [fft_fr_forward_spec out inp n fs1 hpow hle1,
      fft_fr_forward_spec out inp n fs2 hpow hle2,
      fft_fr_fast_roots_congr n out inp 1 _ _ _ _ hfwd]
  · rw [fft_fr_inverse_spec out inp n fs1 hpow hle1,
      fft_fr_inverse_spec out inp n fs2 hpow hle2,
      fft_fr_fast_roots_congr n out inp 1 _ _ _ _ hrev]

/-- C5: in the recursive case `0 < half = n / 2`, writing `sub` for the memory after
the two recursive sub-transforms, the combination step computes
`t = sub[i + half] * roots[i * roots_stride]` and produces `out[i + half] =
sub[i] - t` and `out[i] = sub[i] + t`: the pre-update value `sub[i]` is consumed by
both stores. -/
theorem fft_fr_fast_butterfly_step (out inp : Nat → F) (stride : Nat) (roots : Nat → F)
    (rs n : Nat) (h : 0 < n / 2) :
    ∀ i, i < n / 2 →
      fft_fr_fast out inp stride roots rs n (i + n / 2)
        = fft_fr_fast_sub out inp stride roots rs n i
          - fft_fr_fast_sub out inp stride roots rs n (i + n / 2) * roots (i * rs)
      ∧ fft_fr_fast out inp stride roots rs n i
        = fft_fr_fast_sub out inp stride roots rs n i
          + fft_fr_fast_sub out inp stride roots rs n (i + n / 2) * roots (i * rs) := by
  intro i hi
  rw [fft_fr_fast_rec _ _ _ _ _ _ h,
    butterfly_fold_spec roots rs (n / 2) _ (n / 2) (le_refl _) (i + n / 2),
    butterfly_fold_spec roots rs (n / 2) _ (n / 2) (le_refl _) i]
  constructor
  · rw [if_neg (by omega), if_pos (by omega), Nat.add_sub_cancel]
  · rw [if_pos hi]

/-- C9: the engine is a total function of its arguments for every length `n`, not
only powers of two: the recursion satisfies, for all `n`, the defining recurrence
with both recursive calls at length `n / 2` (strictly smaller whenever `0 < n / 2`)
and the base case at `n / 2 = 0`. -/
theorem fft_fr_fast_total (out inp : Nat → F) (stride : Nat) (roots : Nat → F) (rs : Nat) :
    ∀ n : Nat,
      (0 < n / 2 →
        fft_fr_fast out inp stride roots rs n
          = (List.range (n / 2)).foldl (fun o i => fft_butterfly roots rs (n / 2) i o)
              (fft_fr_fast_sub out inp stride roots rs n))
      ∧ (n / 2 = 0 → fft_fr_fast out inp stride roots rs n = updAt out 0 (inp 0)) :=
  fun n => ⟨fun h => fft_fr_fast_rec out inp stride roots rs n h,
    fun h => fft_fr_fast_base out inp stride roots rs n h⟩

/-- C10: a forward `fft_fr` call never reads the inverse-root table and an inverse
call never reads the forward-root table: two settings objects with the same
`max_width` that agree on the used table give identical results (return value and
whole output memory), whatever the other table contains. -/
theorem fft_fr_unused_table_independent (out inp : Nat → F) (n : Nat)
    (fs1 fs2 : FFTSettings F) (hmw : fs1.max_width = fs2.max_width) :
    (fs1.expanded_roots_of_unity = fs2.expanded_roots_of_unity →
        fft_fr out inp false n fs1 = fft_fr out inp false n fs2)
    ∧ (fs1.reverse_roots_of_unity = fs2.reverse_roots_of_unity →
        fft_fr out inp true n fs1 = fft_fr out inp true n fs2) := by
  constructor
  · intro h
    simp [fft_fr, hmw, h]
  · intro h
    simp [fft_fr, hmw, h]

/-- C8: side effects are confined to the first `n` output slots.  The engine leaves
every slot at index `n` or beyond of `out` unchanged; a driver call that returns a
result also leaves those slots unchanged; and the merge of the second recursive
call's view never touches slots below its offset, so the two recursive calls write
to disjoint sub-ranges of `out`.  (Input, settings and root tables are functions in
this model, never written at all.) -/
theorem fft_fr_frame_effects (out inp : Nat → F) (stride : Nat) (roots : Nat → F)
    (rs n : Nat) (inverse : Bool) (fs : FFTSettings F) (hn : 1 ≤ n) :
    (∀ p, n ≤ p → fft_fr_fast out inp stride roots rs n p = out p)
    ∧ (∀ p, n ≤ p → ∀ r, fft_fr out inp inverse n fs = some r → r.2 p = out p)
    ∧ (∀ (base v : Nat → F) (k p : Nat), p < k → unshift base k v p = base p) := by
  refine ⟨fun p hp => fft_fr_fast_frame n hn out inp stride roots rs p hp, ?_, ?_⟩
  · intro p hp r hcall
    by_cases hok : is_power_of_two n = true ∧ n ≤ fs.max_width
    · cases inverse
      · rw [fft_fr_forward_spec out inp n fs hok.1 hok.2] at hcall
        obtain rfl := Option.some.inj hcall
        exact fft_fr_fast_frame n hn out inp 1 _ _ p hp
      · rw [fft_fr_inverse_spec out inp n fs hok.1 hok.2] at hcall
        obtain rfl := Option.some.inj hcall
        show (if p < n then _ else _) = out p
        rw [if_neg (by omega)]
        exact fft_fr_fast_frame n hn out inp 1 _ _ p hp
    · rw [fft_fr_badargs_spec out inp inverse n fs (by omega) hok] at hcall
      obtain rfl := Option.some.inj hcall
      rfl
  · intro base v k p hpk
    unfold unshift
    rw [if_neg (by omega)]

/-- C2: for every power of two `n = 2 ^ k` with `n ≤ max_width` and every input
sequence `x`, a forward `fft_fr` followed by an inverse `fft_fr` over the same
(properly initialised) settings returns exactly `x` on the first `n` slots, in exact
field equality.  The initialisation of the settings is expressed by the hypotheses:
the forward table holds the powers of `ω` on the strided sub-table, the inverse
table the powers of `ω⁻¹`, `ω ^ (n / 2) = -1` when `n ≥ 2`, and `n` is invertible in
the field (all true of the real BLS12-381 settings object). -/
theorem fft_fr_roundtrip (fs : FFTSettings F) (x out1 out2 : Nat → F) (n k : Nat) (ω : F)
    (hn : n = 2 ^ k) (hle : n ≤ fs.max_width)
    (hfwd : ∀ i, i < n → fs.expanded_roots_of_unity (i * (fs.max_width / n)) = ω ^ i)
    (hrev : ∀ i, i < n → fs.reverse_roots_of_unity (i * (fs.max_width / n)) = ω⁻¹ ^ i)
    (hω : 2 ≤ n → ω ^ (n / 2) = -1)
    (hchar : (n : F) ≠ 0) :
    fft_fr out1 x false n fs
      = some (C_KZG_OK,
          fft_fr_fast out1 x 1 fs.expanded_roots_of_unity (fs.max_width / n) n)
    ∧ ∀ p, p < n →
        (fft_fr out2
            (fft_fr_fast out1 x 1 fs.expanded_roots_of_unity (fs.max_width / n) n)
            true n fs).map (fun r => (r.1, r.2 p))
          = some (C_KZG_OK, x p) := by
  have hpow : is_power_of_two n = true := (is_power_of_two_iff n).mpr ⟨k, hn⟩
  have key : ∀ p, p < n →
      fft_fr_fast out2
          (fft_fr_fast out1 x 1 fs.expanded_roots_of_unity (fs.max_width / n) n) 1
          fs.reverse_roots_of_unity (fs.max_width / n) n p * ((n : F))⁻¹ = x p := by
    subst hn
    intro p hp
    by_cases hk : k = 0
    · subst hk
      rw [fft_fr_fast_base _ _ _ _ _ _ (by norm_num),
        fft_fr_fast_base _ _ _ _ _ _ (by norm_num)]
      have hp0 : p = 0 := by simpa using hp
      subst hp0
      rw [updAt_same, updAt_same]
      norm_num
    · have hω1k : ω ^ 2 ^ (k - 1) = -1 := by
        have h2 : 2 ≤ 2 ^ k := by
          calc 2 = 2 ^ 1 := by norm_num
          _ ≤ 2 ^ k := Nat.pow_le_pow_right (by norm_num) (by omega)
        have h3 := hω h2
        have h4 : 2 ^ k / 2 = 2 ^ (k - 1) := by
          obtain ⟨k2, rfl⟩ : ∃ k2, k = k2 + 1 := ⟨k - 1, by omega⟩
          simp [Nat.pow_succ]
        rwa [h4] at h3
      have hωn : ω ^ 2 ^ k = 1 := by
        have e : 2 ^ k = 2 ^ (k - 1) * 2 := by
          obtain ⟨k2, rfl⟩ : ∃ k2, k = k2 + 1 := ⟨k - 1, by omega⟩
          simp [Nat.pow_succ]
        rw [e, pow_mul, hω1k]
        norm_num
      have hωninv : (ω⁻¹) ^ 2 ^ k = 1 := by
        rw [inv_pow, hωn, inv_one]
      have hω1kinv : k ≠ 0 → (ω⁻¹) ^ 2 ^ (k - 1) = -1 := by
        intro hk2
        rw [inv_pow, hω1k, inv_neg, inv_one]
      have hneg1 : (-1 : F) ≠ 1 := by
        intro h8
        have h9 : (2 : F) = 0 := by linear_combination -h8
        apply hchar
        push_cast
        rw [h9]
        exact zero_pow hk
      have hω0 : ω ≠ 0 := by
        intro h0
        rw [h0, zero_pow (pow_two_ne_zero (k - 1))] at hω1k
        have h2 : (1 : F) = 0 := by linear_combination hω1k
        exact one_ne_zero h2
      have horder : ∀ d, 0 < d → d < 2 ^ k → ω ^ d ≠ 1 := by
        intro d hd1 hd2 hd3
        have hdvd : orderOf ω ∣ 2 ^ k := orderOf_dvd_of_pow_eq_one hωn
        obtain ⟨m, hm, hmeq⟩ := (Nat.dvd_prime_pow Nat.prime_two).mp hdvd
        by_cases hmk : m = k
        · have h5 : orderOf ω ∣ d := orderOf_dvd_of_pow_eq_one hd3
          rw [hmeq, hmk] at h5
          have := Nat.le_of_dvd hd1 h5
          omega
        · have h6 : orderOf ω ∣ 2 ^ (k - 1) := by
            rw [hmeq]
            exact Nat.pow_dvd_pow 2 (by omega)
          have h7 : ω ^ 2 ^ (k - 1) = 1 := orderOf_dvd_iff_pow_eq_one.mp h6
          rw [hω1k] at h7
          exact hneg1 h7
      have hcn : ∀ j : Nat, (ω ^ j * (ω⁻¹) ^ p) ^ 2 ^ k = 1 := by
        intro j
        rw [mul_pow, ← pow_mul, ← pow_mul, mul_comm j (2 ^ k), mul_comm p (2 ^ k),
          pow_mul, pow_mul, hωn, hωninv, one_pow, one_pow, one_mul]
      have hcne : ∀ j, j < 2 ^ k → j ≠ p → ω ^ j * (ω⁻¹) ^ p ≠ 1 := by
        intro j hj hne hc
        have hωp : ω ^ p ≠ 0 := pow_ne_zero _ hω0
        have h1 : ω ^ j = ω ^ p := by
          have h2 := congrArg (fun z => z * ω ^ p) hc
          simp only [one_mul] at h2
          rw [inv_pow, mul_assoc, inv_mul_cancel₀ hωp, mul_one] at h2
          exact h2
        have hcancel : ∀ a b : Nat, a < b → b < 2 ^ k → ω ^ a = ω ^ b → False := by
          intro a b hab hbn he
          have h3 : ω ^ a * ω ^ (b - a) = ω ^ a * 1 := by
            rw [← pow_add, mul_one, he]
            congr 1
            omega
          exact horder (b - a) (by omega) (by omega)
            (mul_left_cancel₀ (pow_ne_zero a hω0) h3)
        rcases Nat.lt_or_ge j p with hlt | hge
        · exact hcancel j p hlt hp h1
        · have hne2 : p < j := by omega
          exact hcancel p j hne2 hj h1.symm
      have hgeom : ∀ c : F, c ≠ 1 → c ^ 2 ^ k = 1
          → ∑ i in Finset.range (2 ^ k), c ^ i = 0 := by
        intro c hc1 hcn2
        rw [geom_sum_eq hc1, hcn2]
        simp
      have hY : ∀ q, q < 2 ^ k →
          fft_fr_fast out1 x 1 fs.expanded_roots_of_unity (fs.max_width / 2 ^ k) (2 ^ k) q
            = ∑ j in Finset.range (2 ^ k), x (j * 1) * ω ^ (q * j) :=
        fun q hq => fft_fr_fast_eval k out1 x 1 _ _ ω hfwd (fun _ => hω1k) q hq
      have hZ := fft_fr_fast_eval k out2
        (fft_fr_fast out1 x 1 fs.expanded_roots_of_unity (fs.max_width / 2 ^ k) (2 ^ k)) 1
        fs.reverse_roots_of_unity (fs.max_width / 2 ^ k) ω⁻¹ hrev hω1kinv p hp
      rw [hZ]
      have hstep1 : ∑ i in Finset.range (2 ^ k),
          fft_fr_fast out1 x 1 fs.expanded_roots_of_unity (fs.max_width / 2 ^ k) (2 ^ k)
              (i * 1) * (ω⁻¹) ^ (p * i)
          = ∑ j in Finset.range (2 ^ k),
              x j * ∑ i in Finset.range (2 ^ k), (ω ^ j * (ω⁻¹) ^ p) ^ i := by
        have e1 : ∀ i ∈ Finset.range (2 ^ k),
            fft_fr_fast out1 x 1 fs.expanded_roots_of_unity (fs.max_width / 2 ^ k) (2 ^ k)
                (i * 1) * (ω⁻¹) ^ (p * i)
              = ∑ j in Finset.range (2 ^ k), x j * ((ω ^ j * (ω⁻¹) ^ p) ^ i) := by
          intro i hi
          rw [mul_one, hY i (Finset.mem_range.mp hi), Finset.sum_mul]
          apply Finset.sum_congr rfl
          intro j hj
          rw [mul_one]
          have e2 : ω ^ (i * j) = (ω ^ j) ^ i := by rw [← pow_mul, mul_comm]
          have e3 : (ω⁻¹) ^ (p * i) = ((ω⁻¹) ^ p) ^ i := by rw [← pow_mul]
          rw [e2, e3, mul_pow, mul_assoc]
        rw [Finset.sum_congr rfl e1, Finset.sum_comm]
        apply Finset.sum_congr rfl
        intro j hj
        rw [Finset.mul_sum]
      rw [hstep1,
        show (∑ j in Finset.range (2 ^ k),
            x j * ∑ i in Finset.range (2 ^ k), (ω ^ j * (ω⁻¹) ^ p) ^ i)
          = x p * ∑ i in Finset.range (2 ^ k), (ω ^ p * (ω⁻¹) ^ p) ^ i from
          Finset.sum_eq_single p
            (fun j hj hne => by
              rw [hgeom _ (hcne j (Finset.mem_range.mp hj) hne) (hcn j), mul_zero])
            (fun hc => absurd (Finset.mem_range.mpr hp) hc)]
      have hcp : ω ^ p * (ω⁻¹) ^ p = 1 := by
        rw [inv_pow, mul_inv_cancel₀ (pow_ne_zero p hω0)]
      rw [hcp,
        Finset.sum_congr rfl (fun i _ => one_pow i),
        Finset.sum_const, Finset.card_range, nsmul_eq_mul, mul_one,
        mul_assoc, mul_inv_cancel₀ hchar, mul_one]
  refine ⟨fft_fr_forward_spec out1 x n fs hpow hle, ?_⟩
  intro p hp
  rw [fft_fr_inverse_spec out2 _ n fs hpow hle]
  show some (C_KZG_OK, (if p < n then _ else _)) = _
  rw [if_pos hp, key p hp]

instance : Fact (Nat.Prime 17) := ⟨by norm_num⟩

/-- Concrete table of powers of `4` in `ZMod 17` (`4` has order `4`: `4 ^ 2 = -1`). -/
def wExpTab : Nat → ZMod 17 := fun i => (4 : ZMod 17) ^ i

/-- Concrete table of powers of `13 = 4⁻¹` in `ZMod 17`. -/
def wRevTab : Nat → ZMod 17 := fun i => (13 : ZMod 17) ^ i

/-- Concrete table of powers of `2` in `ZMod 17` (`2` has order `8`: `2 ^ 4 = -1`). -/
def wExpTab8 : Nat → ZMod 17 := fun i => (2 : ZMod 17) ^ i

/-- Concrete table of powers of `9 = 2⁻¹` in `ZMod 17`. -/
def wRevTab8 : Nat → ZMod 17 := fun i => (9 : ZMod 17) ^ i

/-- Concrete input memory `0, 1, 2, ...` in `ZMod 17`. -/
def wInput : Nat → ZMod 17 := fun i => (i : ZMod 17)

/-- Concrete all-zero memory. -/
def wZero : Nat → ZMod 17 := fun _ => 0

/-- Concrete settings of width `4` over `ZMod 17`. -/
def wFs : FFTSettings (ZMod 17) := ⟨4, wExpTab, wRevTab⟩

/-- Concrete settings of width `8` over `ZMod 17`, a consistent extension of `wFs`
(`2 ^ 2 = 4`, `9 ^ 2 = 13`). -/
def wFs8 : FFTSettings (ZMod 17) := ⟨8, wExpTab8, wRevTab8⟩

/-- Concrete settings equal to `wFs` except for the reverse-root table. -/
def wFsAlt : FFTSettings (ZMod 17) := ⟨4, wExpTab, wRevTab8⟩

/-- Witness for C1 at `n = 4`, `F = ZMod 17`, `ω = 4`: the table hypotheses hold and
the fast and slow outputs agree at index `1`. -/
theorem fft_fr_fast_eq_fft_fr_slow_witness :
    (4 : Nat) = 2 ^ 2
    ∧ fft_fr_fast wZero wInput 1 wExpTab 1 4 1 = fft_fr_slow wZero wInput 1 wExpTab 1 4 1 :=
  ⟨by norm_num,
    (fft_fr_fast_eq_fft_fr_slow wZero wZero wInput 1 wExpTab 1 4 2 (4 : ZMod 17)
      (by norm_num) (by decide) (by decide) 1 (by decide)).1⟩

/-- Witness for C2 at `n = 4`, `F = ZMod 17`, `ω = 4`: forward then inverse
reproduces the input at index `1`. -/
theorem fft_fr_roundtrip_witness :
    (4 : Nat) = 2 ^ 2
    ∧ (fft_fr wZero
          (fft_fr_fast wZero wInput 1 wFs.expanded_roots_of_unity (wFs.max_width / 4) 4)
          true 4 wFs).map (fun r => (r.1, r.2 1))
        = some (C_KZG_OK, wInput 1) :=
  ⟨by norm_num,
    (fft_fr_roundtrip wFs wInput wZero wZero 4 2 (4 : ZMod 17) (by norm_num) (by decide)
      (by decide)
      (by
        intro i hi
        rw [inv_pow]
        apply eq_inv_of_mul_eq_one_left
        interval_cases i <;> decide)
      (by decide) (by decide)).2 1 (by decide)⟩

/-- Witness for C4 at `n = 4`, `F = ZMod 17`. -/
theorem fft_fr_inverse_is_engine_then_scale_witness :
    is_power_of_two 4 = true
    ∧ fft_fr wZero wInput true 4 wFs
        = some (C_KZG_OK, fun p =>
            if p < 4
            then fft_fr_fast wZero wInput 1 wFs.reverse_roots_of_unity (wFs.max_width / 4) 4 p
                  * (((4 : Nat) : ZMod 17))⁻¹
            else fft_fr_fast wZero wInput 1 wFs.reverse_roots_of_unity (wFs.max_width / 4) 4 p) :=
  ⟨by decide, fft_fr_inverse_is_engine_then_scale wZero wInput 4 wFs (by decide) (by decide)⟩

/-- Witness for C5 at `n = 4`, `i = 1`, `F = ZMod 17`. -/
theorem fft_fr_fast_butterfly_step_witness :
    0 < 4 / 2
    ∧ (fft_fr_fast wZero wInput 1 wExpTab 1 4 (1 + 4 / 2)
        = fft_fr_fast_sub wZero wInput 1 wExpTab 1 4 1
          - fft_fr_fast_sub wZero wInput 1 wExpTab 1 4 (1 + 4 / 2) * wExpTab (1 * 1)
      ∧ fft_fr_fast wZero wInput 1 wExpTab 1 4 1
        = fft_fr_fast_sub wZero wInput 1 wExpTab 1 4 1
          + fft_fr_fast_sub wZero wInput 1 wExpTab 1 4 (1 + 4 / 2) * wExpTab (1 * 1)) :=
  ⟨by decide,
    fft_fr_fast_butterfly_step wZero wInput 1 wExpTab 1 4 (by decide) 1 (by decide)⟩

/-- Witness for C6: width-4 and width-8 settings with consistent tables give the
same forward transform of length `4`. -/
theorem fft_fr_stride_consistent_witness :
    4 ≤ wFs8.max_width
    ∧ fft_fr wZero wInput false 4 wFs = fft_fr wZero wInput false 4 wFs8 :=
  ⟨by decide,
    fft_fr_stride_consistent wZero wInput 4 wFs wFs8 false (by decide) (by decide)
      (by decide) (by decide) (by decide)⟩

/-- Witness for C7: the inverse direction at `n = 1` over `wFs`. -/
theorem fft_fr_length_one_witness :
    1 ≤ wFs.max_width
    ∧ (fft_fr wZero wInput true 1 wFs).map (fun r => (r.1, r.2 0))
        = some (C_KZG_OK, wInput 0) :=
  ⟨by decide, fft_fr_length_one wZero wInput wFs true (by decide)⟩

/-- Witness for C8: the engine of length `4` leaves slot `5` unchanged. -/
theorem fft_fr_frame_effects_witness :
    1 ≤ 4 ∧ fft_fr_fast wZero wInput 1 wExpTab 1 4 5 = wZero 5 :=
  ⟨by decide,
    (fft_fr_frame_effects wZero wInput 1 wExpTab 1 4 false wFs (by decide)).1 5 (by decide)⟩

/-- Witness for C10: settings differing only in the reverse table give the same
forward call. -/
theorem fft_fr_unused_table_independent_witness :
    wFs.max_width = wFsAlt.max_width
    ∧ fft_fr wZero wInput false 4 wFs = fft_fr wZero wInput false 4 wFsAlt :=
  ⟨rfl, (fft_fr_unused_table_independent wZero wInput 4 wFs wFsAlt rfl).1 rfl⟩
